import Mathlib

/-!
# Verification of the conditional evaluator (`src/evaluators/IfStatement.js`)

A shallow embedding of the if-statement evaluator of an ahead-of-time
partial evaluator for a dynamic language.  The evaluator under test is
`evaluate` / `evaluateWithAbstractConditional` below, translated from
`src/evaluators/IfStatement.js`.  All external collaborators
(`env.evaluate`, `env.evaluateCompletion`, `realm.evaluateNodeForEffects`,
`realm.composeWithSavedCompletion`, `realm.applyEffects`, the feasibility
predicates `mightNotBeTrue` / `mightNotBeFalse`, `To.ToBoolean` and the
condition evaluation `env.evaluate` + `Environment.GetConditionValue`) live
outside the observed source and are modelled as an oracle structure `Ext`
over an abstract world type `σ`.

The path-condition stack is carried explicitly by the evaluator.
`Path.withCondition` / `Path.withInverseCondition` are modelled by their
stated contract: they push the assumption, run the thunk on the extended
stack, and pop the assumption on every exit path (normal, infeasible, or
any other raised failure); the collaborators keep the stack balanced across
their own calls, so they receive it read-only.

Ghost instrumentation: the evaluator records every sandbox invocation,
assumption push, join, composition, and `applyEffects` call in an ordered
trace (newest event first).  The trace is written only by the evaluator
itself, so it counts precisely the calls this code performs.
-/

namespace Prepack

/-- An AST node, identified opaquely.  The evaluator never inspects the
inside of a statement node; it only hands nodes to the collaborators. -/
structure Node where
  id : Nat
deriving DecidableEq

/-- A Babel `IfStatement` node: `test`, `consequent`, optional `alternate`. -/
structure AstIf where
  test : Node
  consequent : Node
  alternate : Option Node
deriving DecidableEq

/-- The value model: concrete values (`undefined`, the no-value marker
`empty`, numbers) and abstract values (opaque symbolic values `abs i`, and
conditional values `vite c t f` standing for `c ? t : f`, which the join
engine builds). -/
inductive Value
  | undef
  | empty
  | num (n : Int)
  | abs (id : Nat)
  | vite (c t f : Value)
deriving DecidableEq

/-- The check `instanceof ConcreteValue`. -/
def Value.isConcrete : Value → Bool
  | .undef | .empty | .num _ => true
  | _ => false

/-- The check `instanceof AbstractValue` — the value hierarchy is closed, so this is
the complement of `isConcrete`. -/
def Value.isAbstract (v : Value) : Bool := !v.isConcrete

/-- Abrupt-completion kinds: return, break, continue, throw. -/
inductive AbruptKind
  | ret
  | brk
  | cont
  | thr
deriving DecidableEq

/-- Completions.  `val v` is a normal completion carrying a value (in the
source a bare `Value` plays this role); `abrupt` carries kind, value and
optional target label; `joinedAbrupt c ct cf` models a joined abrupt
completion (two abrupt sides of different kind/target merged under
condition `c` — an `AbruptCompletion` in the class hierarchy);
`possiblyNormal c ct cf` models a `PossiblyNormalCompletion` straddling a
normal and a pending abrupt side under condition `c`. -/
inductive Completion
  | val (v : Value)
  | abrupt (k : AbruptKind) (v : Value) (target : Option Nat)
  | joinedAbrupt (c : Value) (ct cf : Completion)
  | possiblyNormal (c : Value) (ct cf : Completion)
deriving DecidableEq

/-- The check `instanceof AbruptCompletion` — joined abrupt completions are abrupt
completions in the class hierarchy, possibly-normal ones are not. -/
def Completion.isAbrupt : Completion → Bool
  | .abrupt _ _ _ => true
  | .joinedAbrupt _ _ _ => true
  | _ => false

/-- The check `instanceof PossiblyNormalCompletion`. -/
def Completion.isPossiblyNormal : Completion → Bool
  | .possiblyNormal _ _ _ => true
  | _ => false

/-- The check `instanceof Value` — only a plain normal completion is a bare value. -/
def Completion.isValue : Completion → Bool
  | .val _ => true
  | _ => false

/-- Modelled from the spec: `UpdateEmpty` (§4.6) lives in
`src/methods/index.js`, which is not part of the observed source.  "If the
completion's value is the language's no-value marker, replace it with
`defaultValue` without changing the completion's kind (Normal/Abrupt) or
target label; otherwise return unchanged."  For the composite completions
the replacement is applied to the values of both arms. -/
def UpdateEmpty (c : Completion) (default : Value) : Completion :=
  match c with
  | .val v => .val (if v = .empty then default else v)
  | .abrupt k v t => .abrupt k (if v = .empty then default else v) t
  | .joinedAbrupt c ct cf => .joinedAbrupt c (UpdateEmpty ct default) (UpdateEmpty cf default)
  | .possiblyNormal c ct cf => .possiblyNormal c (UpdateEmpty ct default) (UpdateEmpty cf default)

/-- Faults that propagate as host-level exceptions out of an evaluation:
a thrown completion (`throw stmtCompletion` — the language's own
control-flow transport), the infeasible-path signal
(`InfeasiblePathError`), an invariant-assertion failure of this file
(site 0: a `Reference` reached a point where only a value is valid;
site 1: the final completion is not a `Value`; site 2: the condition is
neither concrete nor abstract), or any other evaluator-level fault. -/
inductive Err
  | thrownCompletion (c : Completion)
  | infeasible
  | invariantViolation (site : Nat)
  | host (id : Nat)
deriving DecidableEq

/-- Result of `env.evaluate` / `env.evaluateCompletion`: a `Reference` or a
completion (a bare `Value` is the completion `Completion.val v`). -/
inductive EvalRes
  | ref (id : Nat)
  | compl (c : Completion)
deriving DecidableEq

/-- Residual-instruction streams (generators).  The join engine wraps the
two arms' streams in a single conditional branch instruction. -/
inductive Gen
  | empty
  | emit (id : Nat)
  | seq (a b : Gen)
  | branch (c : Value) (t f : Gen)
deriving DecidableEq

/-- An `Effects` record as destructured by the evaluator:
`[completion, generator, bindings, properties, createdObjects]`.
Binding deltas map environment slots to values, property deltas map
(object identity, key) pairs to values. -/
structure Effects where
  completion : Completion
  generator : Gen
  bindings : List (Nat × Value)
  properties : List ((Nat × Nat) × Value)
  createdObjects : List Nat
deriving DecidableEq

/-- Modelled from the spec: `construct_empty_effects` lives in
`src/realm.js`, which is not part of the observed source.  It synthesizes
an empty `Effects`: a normal completion carrying the no-value marker, an
empty generator, empty binding/property deltas, no created objects. -/
def construct_empty_effects : Effects :=
  { completion := .val .empty
    generator := .empty
    bindings := []
    properties := []
    createdObjects := [] }

/-- Ghost instrumentation events, recorded newest-first. -/
inductive Event
  | push (c : Value) (assumedTruth : Bool)
  | sandbox (n : Node)
  | joinCall (result : Effects)
  | compose
  | applyCall (e : Effects)
deriving DecidableEq

/-- Evaluator-visible state: the abstract world `σ` (real bindings, heap,
output stream), the path-condition stack, and the ghost trace. -/
structure St (σ : Type) where
  world : σ
  path : List (Value × Bool)
  trace : List Event

/-- The external collaborators (§6 of the spec), over an abstract world
type `σ`.  Each may fail with any `Err`.  They receive the path-condition
stack read-only: by their stated contracts they keep it balanced, so their
net effect on it is nil. -/
structure Ext (σ : Type) where
  /-- Steps 1–2 of `evaluate`: `env.evaluate(ast.test)` followed by
  `Environment.GetConditionValue`. -/
  evalCondition : Node → σ → List (Value × Bool) → Except Err Value × σ
  /-- The conversion `To.ToBoolean` on a concrete value. -/
  toBoolean : Value → Bool
  /-- The call `env.evaluateCompletion(node, strictCode)`. -/
  evaluateCompletion : Node → σ → List (Value × Bool) → Except Err EvalRes × σ
  /-- The call `env.evaluate(node, strictCode)`. -/
  evaluateDirect : Node → σ → List (Value × Bool) → Except Err EvalRes × σ
  /-- The query `AbstractValue.mightNotBeTrue()`, computed against the current
  path-condition stack; per §4.2 it may itself raise the infeasible-path
  signal. -/
  mightNotBeTrue : Value → List (Value × Bool) → Except Err Bool
  /-- The query `AbstractValue.mightNotBeFalse()`. -/
  mightNotBeFalse : Value → List (Value × Bool) → Except Err Bool
  /-- The call `realm.evaluateNodeForEffects(node, strictCode, env)` — the sandbox. -/
  evaluateForEffects : Node → σ → List (Value × Bool) → Except Err Effects × σ
  /-- The call `realm.composeWithSavedCompletion(completion)`. -/
  composeWithSaved : Completion → σ → Completion × σ
  /-- The call `realm.applyEffects(effects)` — commit to real state. -/
  applyEffects : Effects → σ → σ
  /-- The realm's current (pre-fork) value of an environment slot, as read
  by the join engine. -/
  origBinding : σ → Nat → Value
  /-- The realm's current (pre-fork) value of an object property. -/
  origProp : σ → Nat × Nat → Value

/-- The common tail of every direct-evaluation path of the source
(lines 44–51, 56–63, 69–74, 103–111, 122–130):
`invariant(!(stmtCompletion instanceof Reference))`, then
`UpdateEmpty(realm, stmtCompletion, realm.intrinsics.undefined)`, then
`if (stmtCompletion instanceof AbruptCompletion) throw stmtCompletion`,
then `invariant(stmtCompletion instanceof Value)` and return it. -/
def finishDirect (res : EvalRes) : Except Err Value :=
  match res with
  | .ref _ => .error (.invariantViolation 0)
  | .compl c0 =>
    let c := UpdateEmpty c0 .undef
    if c.isAbrupt then .error (.thrownCompletion c)
    else
      match c with
      | .val v => .ok v
      | _ => .error (.invariantViolation 1)

/-- First-occurrence lookup in an association list. -/
def lookupKV {κ : Type} [DecidableEq κ] : List (κ × Value) → κ → Option Value
  | [], _ => none
  | (k2, v) :: rest, k => if k2 = k then some v else lookupKV rest k

/-- The keys touched by a delta map. -/
def keysOf {κ : Type} (m : List (κ × Value)) : List κ := m.map Prod.fst

/-- Modelled from the spec: the per-key merge rule of the join engine
(§4.4).  For a key touched by both sides, `if condition then valueTrue
else valueFalse`; for a key touched by only one side, the other arm is the
key's pre-branch (original) value. -/
def joinVal (c : Value) (orig : Value) : Option Value → Option Value → Value
  | some vt, some vf => .vite c vt vf
  | some vt, none => .vite c vt orig
  | none, some vf => .vite c orig vf
  | none, none => orig

/-- Modelled from the spec: the delta-map part of the join engine (§4.4).
The joined map touches the union of the keys touched by either side, each
mapped by the per-key merge rule, reading pre-branch values from `orig`. -/
def joinMap {κ : Type} [DecidableEq κ] (c : Value) (orig : κ → Value)
    (mT mF : List (κ × Value)) : List (κ × Value) :=
  (keysOf mT ++ keysOf mF).dedup.map fun k => (k, joinVal c (orig k) (lookupKV mT k) (lookupKV mF k))

/-- Modelled from the spec: the completion part of the join engine (§4.4).
Both sides Normal: a ternary merge of the two values.  Both sides Abrupt
of the same kind and target: Abrupt with a ternary-merged value.  Both
Abrupt with different kind/target: the join cannot flatten and produces a
joined abrupt composite.  One Normal, one Abrupt (or a straddling side):
a PossiblyNormal completion guarded by the condition, retaining both
sides. -/
def joinCompletion (c : Value) (ct cf : Completion) : Completion :=
  match ct, cf with
  | .val vt, .val vf => .val (.vite c vt vf)
  | .abrupt k vt t, .abrupt k2 vf t2 =>
    if k = k2 ∧ t = t2 then .abrupt k (.vite c vt vf) t
    else .joinedAbrupt c (.abrupt k vt t) (.abrupt k2 vf t2)
  | ct, cf => .possiblyNormal c ct cf

/-- Modelled from the spec: `Join.joinEffects` (§4.4) lives in
`src/methods/join.js`, which is not part of the observed source.
Completion: joined completion; residual instructions: a single conditional
branch containing each side's stream on its arm; binding and property
deltas: the per-key merge over the union of touched keys; created objects:
set union. -/
def joinEffects {σ : Type} (ext : Ext σ) (w : σ) (c : Value) (e1 e2 : Effects) : Effects :=
  { completion := joinCompletion c e1.completion e2.completion
    generator := .branch c e1.generator e2.generator
    bindings := joinMap c (ext.origBinding w) e1.bindings e2.bindings
    properties := joinMap c (ext.origProp w) e1.properties e2.properties
    createdObjects := e1.createdObjects ++ e2.createdObjects }

/-- A direct branch-evaluation call followed by the common tail: the
raised failure of the call propagates (`throw`), an ordinary result goes
through `finishDirect`.  `path` and `t` are the stack and trace the
continuation carries. -/
def runDirect {σ : Type} (r : Except Err EvalRes × σ) (path : List (Value × Bool))
    (t : List Event) : Except Err Value × St σ :=
  match r.1 with
  | .error e => (.error e, ⟨r.2, path, t⟩)
  | .ok res => (finishDirect res, ⟨r.2, path, t⟩)

/-- The tail of the fork path, lines 155–157 of the source:
`if (completion instanceof AbruptCompletion) throw completion;
invariant(completion instanceof Value); return completion;`.  Note: no
`UpdateEmpty` here. -/
def finishJoin {σ : Type} (comp : Completion) (w : σ) (path : List (Value × Bool))
    (t : List Event) : Except Err Value × St σ :=
  if comp.isAbrupt then (.error (.thrownCompletion comp), ⟨w, path, t⟩)
  else
    match comp with
    | .val v => (.ok v, ⟨w, path, t⟩)
    | _ => (.error (.invariantViolation 1), ⟨w, path, t⟩)

/-- The function `evaluateWithAbstractConditional(condValue, consequent, alternate,
strictCode, env, realm)` — lines 82–158 of the source.  The two sandboxed
calls run under `Path.withCondition` / `Path.withInverseCondition`, whose
pop-on-every-exit contract is modelled by running the thunk on the
extended stack while the continuation keeps the original stack. -/
def evaluateWithAbstractConditional {σ : Type} (ext : Ext σ) (condValue : Value)
    (consequent : Node) (alternate : Option Node) (s : St σ) : Except Err Value × St σ :=
  let t1 : List Event := .sandbox consequent :: .push condValue true :: s.trace
  match ext.evaluateForEffects consequent s.world ((condValue, true) :: s.path) with
  | (.error e, w1) =>
    if e = .infeasible then
      -- catch (e instanceof InfeasiblePathError): evaluate the alternate
      -- (or undefined) directly in the real environment, lines 97–112.
      match alternate with
      | some alt => runDirect (ext.evaluateCompletion alt w1 s.path) s.path t1
      | none => (finishDirect (.compl (.val .undef)), ⟨w1, s.path, t1⟩)
    else (.error e, ⟨w1, s.path, t1⟩)  -- throw e
  | (.ok eff1, w1) =>
    let t2 : List Event :=
      match alternate with
      | some alt => .sandbox alt :: .push condValue false :: t1
      | none => .push condValue false :: t1
    let r2 : Except Err Effects × σ :=
      match alternate with
      | some alt => ext.evaluateForEffects alt w1 ((condValue, false) :: s.path)
      | none => (.ok construct_empty_effects, w1)
    match r2 with
    | (.error e, w2) =>
      if e = .infeasible then
        -- catch (e instanceof InfeasiblePathError): evaluate the
        -- consequent directly in the real environment, lines 121–131.
        runDirect (ext.evaluateDirect consequent w2 s.path) s.path t2
      else (.error e, ⟨w2, s.path, t2⟩)  -- throw e
    | (.ok eff2, w2) =>
      -- lines 136–157: join, compose a possibly-normal completion, commit,
      -- then throw or return.
      let joined := joinEffects ext w2 condValue eff1 eff2
      let t3 : List Event := .joinCall joined :: t2
      let comp0 := joined.completion
      let cw : Completion × σ :=
        if comp0.isPossiblyNormal then ext.composeWithSaved comp0 w2 else (comp0, w2)
      let t4 : List Event := if comp0.isPossiblyNormal then .compose :: t3 else t3
      let w4 := ext.applyEffects joined cw.2
      let t5 : List Event := .applyCall joined :: t4
      finishJoin cw.1 w4 s.path t5

/-- The function `evaluate(ast, strictCode, env, realm)` — lines 24–80 of the source. -/
def evaluate {σ : Type} (ext : Ext σ) (ast : AstIf) (s : St σ) : Except Err Value × St σ :=
  match ext.evalCondition ast.test s.world s.path with
  | (.error e, w0) => (.error e, ⟨w0, s.path, s.trace⟩)
  | (.ok exprValue, w0) =>
    if exprValue.isConcrete then
      -- lines 31–52: concrete condition, one branch evaluated directly.
      if ext.toBoolean exprValue then
        runDirect (ext.evaluateCompletion ast.consequent w0 s.path) s.path s.trace
      else
        match ast.alternate with
        | some alt => runDirect (ext.evaluateCompletion alt w0 s.path) s.path s.trace
        | none => (finishDirect (.compl (.val .undef)), ⟨w0, s.path, s.trace⟩)
    else if !exprValue.isAbstract then
      -- invariant(exprValue instanceof AbstractValue), line 54.
      (.error (.invariantViolation 2), ⟨w0, s.path, s.trace⟩)
    else
      match ext.mightNotBeTrue exprValue s.path with
      | .error e => (.error e, ⟨w0, s.path, s.trace⟩)
      | .ok mnt =>
        if !mnt then
          -- lines 55–64: provably true, consequent evaluated directly.
          runDirect (ext.evaluateDirect ast.consequent w0 s.path) s.path s.trace
        else
          match ext.mightNotBeFalse exprValue s.path with
          | .error e => (.error e, ⟨w0, s.path, s.trace⟩)
          | .ok mnf =>
            if !mnf then
              -- lines 65–75: provably false, alternate (or undefined)
              -- evaluated directly.
              match ast.alternate with
              | some alt => runDirect (ext.evaluateDirect alt w0 s.path) s.path s.trace
              | none => (finishDirect (.compl (.val .undef)), ⟨w0, s.path, s.trace⟩)
            else
              -- lines 76–79: genuinely undecided, fork.
              evaluateWithAbstractConditional ext exprValue ast.consequent ast.alternate
                ⟨w0, s.path, s.trace⟩

/-! ## Spec-side comparators

The definitions below follow the spec's words, not the source; the claim
theorems compare the source-derived evaluator against them. -/

/-- The spec's uniform branch-result treatment (§4.1 step 2, §4.6, §7):
normalize the completion with the `undefined` default, raise it if it is
Abrupt, else return its Value.  Per §7 a reference reaching a point where
only a value is valid, or a completion that carries no plain value, is a
fatal invariant violation. -/
def specFinish (res : EvalRes) : Except Err Value :=
  match res with
  | .ref _ => .error (.invariantViolation 0)
  | .compl c0 =>
    let c := UpdateEmpty c0 .undef
    if c.isAbrupt then .error (.thrownCompletion c)
    else
      match c with
      | .val v => .ok v
      | _ => .error (.invariantViolation 1)

/-- Direct evaluation of a selected branch as the spec words it (§4.1):
evaluate the branch in the real environment with the given evaluation
function — or, when no branch is selected, a normal completion carrying
the language's no-value marker — then normalize, raise-if-abrupt, or
return the value. -/
def specDirect {σ : Type} (evalFn : Node → σ → List (Value × Bool) → Except Err EvalRes × σ)
    (branch : Option Node) (w : σ) (path : List (Value × Bool)) : Except Err Value × σ :=
  match branch with
  | some n =>
    let r := evalFn n w path
    (match r.1 with
     | .error e => (.error e, r.2)
     | .ok res => (specFinish res, r.2))
  | none => (specFinish (.compl (.val .empty)), w)

/-! ## Specialization of effects to a resolved condition

`specialize c b` replaces every conditional built on the condition `c` by
its arm selected by `b`; `usesCond c` tests whether `c` occurs as a fork
condition at all.  These express the spec's join correctness law (§4.4,
§8): specializing the joined `Effects` to a truth value of the condition
must reproduce the corresponding side. -/

/-- Resolve every `c ? t : f` node built on exactly the condition `c` to
the arm selected by `b`. -/
def Value.specialize (c : Value) (b : Bool) : Value → Value
  | .vite c2 t f =>
    if c2 = c then (if b then Value.specialize c b t else Value.specialize c b f)
    else .vite (Value.specialize c b c2) (Value.specialize c b t) (Value.specialize c b f)
  | v => v

/-- Does the condition `c` occur anywhere in this value as a fork
condition or a subterm of one? -/
def Value.usesCond (c : Value) : Value → Bool
  | .vite c2 t f =>
    decide (c2 = c) || Value.usesCond c c2 || Value.usesCond c t || Value.usesCond c f
  | _ => false

/-- Specialization of a completion: composite completions guarded by `c`
collapse to the arm selected by `b`. -/
def Completion.specialize (c : Value) (b : Bool) : Completion → Completion
  | .val v => .val (Value.specialize c b v)
  | .abrupt k v t => .abrupt k (Value.specialize c b v) t
  | .joinedAbrupt c2 ct cf =>
    if c2 = c then (if b then Completion.specialize c b ct else Completion.specialize c b cf)
    else .joinedAbrupt (Value.specialize c b c2) (Completion.specialize c b ct)
      (Completion.specialize c b cf)
  | .possiblyNormal c2 ct cf =>
    if c2 = c then (if b then Completion.specialize c b ct else Completion.specialize c b cf)
    else .possiblyNormal (Value.specialize c b c2) (Completion.specialize c b ct)
      (Completion.specialize c b cf)

/-- Does the condition `c` occur anywhere in this completion? -/
def Completion.usesCond (c : Value) : Completion → Bool
  | .val v => Value.usesCond c v
  | .abrupt _ v _ => Value.usesCond c v
  | .joinedAbrupt c2 ct cf =>
    decide (c2 = c) || Value.usesCond c c2 || Completion.usesCond c ct || Completion.usesCond c cf
  | .possiblyNormal c2 ct cf =>
    decide (c2 = c) || Value.usesCond c c2 || Completion.usesCond c ct || Completion.usesCond c cf

/-- Specialization of a residual-instruction stream: a branch instruction
guarded by `c` collapses to the arm selected by `b`. -/
def Gen.specialize (c : Value) (b : Bool) : Gen → Gen
  | .empty => .empty
  | .emit i => .emit i
  | .seq a b2 => .seq (Gen.specialize c b a) (Gen.specialize c b b2)
  | .branch c2 t f =>
    if c2 = c then (if b then Gen.specialize c b t else Gen.specialize c b f)
    else .branch (Value.specialize c b c2) (Gen.specialize c b t) (Gen.specialize c b f)

/-- Does the condition `c` occur anywhere in this stream? -/
def Gen.usesCond (c : Value) : Gen → Bool
  | .empty => false
  | .emit _ => false
  | .seq a b2 => Gen.usesCond c a || Gen.usesCond c b2
  | .branch c2 t f =>
    decide (c2 = c) || Value.usesCond c c2 || Gen.usesCond c t || Gen.usesCond c f

/-- Specialization of a delta map, value-wise. -/
def specializeMap {κ : Type} (c : Value) (b : Bool) (m : List (κ × Value)) : List (κ × Value) :=
  m.map fun kv => (kv.1, Value.specialize c b kv.2)

/-- No value of the delta map mentions the condition `c`. -/
def mapFree {κ : Type} (c : Value) (m : List (κ × Value)) : Bool :=
  m.all fun kv => !(Value.usesCond c kv.2)

/-- Specialization of an `Effects` record, component-wise. -/
def specializeEffects (c : Value) (b : Bool) (e : Effects) : Effects :=
  { completion := Completion.specialize c b e.completion
    generator := Gen.specialize c b e.generator
    bindings := specializeMap c b e.bindings
    properties := specializeMap c b e.properties
    createdObjects := e.createdObjects }

/-- The `Effects` record nowhere mentions the condition `c` — the shape of
effects captured under an assumption about `c`, whose values are refined
with respect to it. -/
def Effects.freeOfCond (c : Value) (e : Effects) : Bool :=
  !(Completion.usesCond c e.completion) && !(Gen.usesCond c e.generator) &&
    mapFree c e.bindings && mapFree c e.properties

/-- The observable value of slot `k` after a delta map is applied over the
pre-branch state `orig`. -/
def observeMap {κ : Type} [DecidableEq κ] (m : List (κ × Value)) (orig : κ → Value) (k : κ) : Value :=
  match lookupKV m k with
  | some v => v
  | none => orig k

/-- Observable equivalence of two `Effects` (§8's join correctness law):
same completion, same residual instructions, and the same observable
post-state for every binding slot and every property. -/
def ObsEquiv {σ : Type} (ext : Ext σ) (w : σ) (e1 e2 : Effects) : Prop :=
  e1.completion = e2.completion ∧ e1.generator = e2.generator ∧
    (∀ k, observeMap e1.bindings (ext.origBinding w) k = observeMap e2.bindings (ext.origBinding w) k) ∧
    (∀ p, observeMap e1.properties (ext.origProp w) p = observeMap e2.properties (ext.origProp w) p)

/-! ## Lemmas about specialization -/

theorem Value.specialize_fresh_value (c : Value) (b : Bool) (v : Value)
    (h : Value.usesCond c v = false) : Value.specialize c b v = v := by
  induction v with
  | undef => rfl
  | empty => rfl
  | num n => rfl
  | abs i => rfl
  | vite c2 t f ihc iht ihf =>
    simp only [Value.usesCond, Bool.or_eq_false_iff, decide_eq_false_iff_not] at h
    obtain ⟨⟨⟨h1, h2⟩, h3⟩, h4⟩ := h
    simp only [Value.specialize, if_neg h1, ihc h2, iht h3, ihf h4]

theorem Completion.specialize_fresh_completion (c : Value) (b : Bool) (x : Completion)
    (h : Completion.usesCond c x = false) : Completion.specialize c b x = x := by
  induction x with
  | val v =>
    simp only [Completion.usesCond] at h
    simp only [Completion.specialize, Value.specialize_fresh_value c b v h]
  | abrupt k v t =>
    simp only [Completion.usesCond] at h
    simp only [Completion.specialize, Value.specialize_fresh_value c b v h]
  | joinedAbrupt c2 ct cf ih1 ih2 =>
    simp only [Completion.usesCond, Bool.or_eq_false_iff, decide_eq_false_iff_not] at h
    obtain ⟨⟨⟨h1, h2⟩, h3⟩, h4⟩ := h
    simp only [Completion.specialize, if_neg h1, Value.specialize_fresh_value c b c2 h2,
      ih1 h3, ih2 h4]
  | possiblyNormal c2 ct cf ih1 ih2 =>
    simp only [Completion.usesCond, Bool.or_eq_false_iff, decide_eq_false_iff_not] at h
    obtain ⟨⟨⟨h1, h2⟩, h3⟩, h4⟩ := h
    simp only [Completion.specialize, if_neg h1, Value.specialize_fresh_value c b c2 h2,
      ih1 h3, ih2 h4]

theorem Gen.specialize_fresh_gen (c : Value) (b : Bool) (g : Gen)
    (h : Gen.usesCond c g = false) : Gen.specialize c b g = g := by
  induction g with
  | empty => rfl
  | emit i => rfl
  | seq a b2 ih1 ih2 =>
    simp only [Gen.usesCond, Bool.or_eq_false_iff] at h
    simp only [Gen.specialize, ih1 h.1, ih2 h.2]
  | branch c2 t f ih1 ih2 =>
    simp only [Gen.usesCond, Bool.or_eq_false_iff, decide_eq_false_iff_not] at h
    obtain ⟨⟨⟨h1, h2⟩, h3⟩, h4⟩ := h
    simp only [Gen.specialize, if_neg h1, Value.specialize_fresh_value c b c2 h2,
      ih1 h3, ih2 h4]

/-! ## Lemmas about delta-map lookup and the joined map -/

theorem lookupKV_eq_none {κ : Type} [DecidableEq κ] (m : List (κ × Value)) (k : κ) :
    lookupKV m k = none ↔ k ∉ keysOf m := by
  induction m with
  | nil => simp [lookupKV, keysOf]
  | cons kv rest ih =>
    obtain ⟨k2, v⟩ := kv
    by_cases h : k2 = k
    · subst h
      simp [lookupKV, keysOf]
    · simp [lookupKV, keysOf, h, ih, Ne.symm h]

theorem lookupKV_map_keyfun {κ : Type} [DecidableEq κ] (l : List κ) (f : κ → Value) (k : κ) :
    lookupKV (l.map fun k2 => (k2, f k2)) k = if k ∈ l then some (f k) else none := by
  induction l with
  | nil => simp [lookupKV]
  | cons a tl ih =>
    by_cases h : a = k
    · subst h
      simp [lookupKV]
    · simp [lookupKV, h, ih, Ne.symm h]

theorem lookupKV_specializeMap {κ : Type} [DecidableEq κ] (c : Value) (b : Bool)
    (m : List (κ × Value)) (k : κ) :
    lookupKV (specializeMap c b m) k = (lookupKV m k).map (Value.specialize c b) := by
  induction m with
  | nil => rfl
  | cons kv rest ih =>
    obtain ⟨k2, v⟩ := kv
    simp only [specializeMap, List.map_cons] at *
    by_cases h : k2 = k <;> simp [lookupKV, h, ih]

theorem mapFree_lookup {κ : Type} [DecidableEq κ] (c : Value) (m : List (κ × Value)) (k : κ)
    (v : Value) (hm : mapFree c m = true) (h : lookupKV m k = some v) :
    Value.usesCond c v = false := by
  induction m with
  | nil => cases h
  | cons kv rest ih =>
    obtain ⟨k2, v2⟩ := kv
    simp only [mapFree, List.all_cons, Bool.and_eq_true, Bool.not_eq_true'] at hm
    by_cases hk : k2 = k
    · rw [lookupKV, if_pos hk] at h
      cases h
      exact hm.1
    · rw [lookupKV, if_neg hk] at h
      exact ih hm.2 h

/-- Per-key form of the join correctness law: for every slot, specializing
the joined delta map to a truth value of the condition observes exactly
what the corresponding side's delta map observes. -/
theorem observe_specialize_joinMap {κ : Type} [DecidableEq κ] (c : Value) (b : Bool)
    (orig : κ → Value) (mT mF : List (κ × Value))
    (hT : mapFree c mT = true) (hF : mapFree c mF = true)
    (horig : ∀ k, Value.usesCond c (orig k) = false) (k : κ) :
    observeMap (specializeMap c b (joinMap c orig mT mF)) orig k =
      observeMap (if b then mT else mF) orig k := by
  unfold observeMap joinMap
  rw [lookupKV_specializeMap, lookupKV_map_keyfun]
  by_cases hk : k ∈ (keysOf mT ++ keysOf mF).dedup
  · rw [if_pos hk]
    rcases h1 : lookupKV mT k with _ | vt <;> rcases h2 : lookupKV mF k with _ | vf
    · exfalso
      rw [List.mem_dedup, List.mem_append] at hk
      rcases hk with hk | hk
      · exact (lookupKV_eq_none mT k).1 h1 hk
      · exact (lookupKV_eq_none mF k).1 h2 hk
    · cases b <;>
        simp [joinVal, Value.specialize,
          Value.specialize_fresh_value c _ _ (horig k),
          Value.specialize_fresh_value c _ _ (mapFree_lookup c mF k vf hF h2), h1, h2]
    · cases b <;>
        simp [joinVal, Value.specialize,
          Value.specialize_fresh_value c _ _ (horig k),
          Value.specialize_fresh_value c _ _ (mapFree_lookup c mT k vt hT h1), h1, h2]
    · cases b <;>
        simp [joinVal, Value.specialize,
          Value.specialize_fresh_value c _ _ (mapFree_lookup c mT k vt hT h1),
          Value.specialize_fresh_value c _ _ (mapFree_lookup c mF k vf hF h2), h1, h2]
  · rw [if_neg hk]
    rw [List.mem_dedup, List.mem_append] at hk
    push_neg at hk
    have h1 : lookupKV mT k = none := (lookupKV_eq_none mT k).2 hk.1
    have h2 : lookupKV mF k = none := (lookupKV_eq_none mF k).2 hk.2
    cases b <;> simp [h1, h2]

theorem Completion.specialize_pn_self (c : Value) (b : Bool) (x y : Completion) :
    Completion.specialize c b (.possiblyNormal c x y) =
      if b then Completion.specialize c b x else Completion.specialize c b y := by
  cases b <;> simp [Completion.specialize]

theorem joinCompletion_specialize (c : Value) (b : Bool) (ct cf : Completion)
    (h1 : Completion.usesCond c ct = false) (h2 : Completion.usesCond c cf = false) :
    Completion.specialize c b (joinCompletion c ct cf) = if b then ct else cf := by
  have hs1 := Completion.specialize_fresh_completion c b ct h1
  have hs2 := Completion.specialize_fresh_completion c b cf h2
  cases ct with
  | val vt =>
    cases cf with
    | val vf =>
      have e1 : Value.specialize c b vt = vt := by simpa [Completion.specialize] using hs1
      have e2 : Value.specialize c b vf = vf := by simpa [Completion.specialize] using hs2
      cases b <;> simp [joinCompletion, Completion.specialize, Value.specialize, e1, e2]
    | abrupt k2 vf t2 =>
      simp only [joinCompletion]
      rw [Completion.specialize_pn_self]
      cases b <;> simp [hs1, hs2]
    | joinedAbrupt c2 x y =>
      simp only [joinCompletion]
      rw [Completion.specialize_pn_self]
      cases b <;> simp [hs1, hs2]
    | possiblyNormal c2 x y =>
      simp only [joinCompletion]
      rw [Completion.specialize_pn_self]
      cases b <;> simp [hs1, hs2]
  | abrupt k vt t =>
    cases cf with
    | val vf =>
      simp only [joinCompletion]
      rw [Completion.specialize_pn_self]
      cases b <;> simp [hs1, hs2]
    | abrupt k2 vf t2 =>
      have e1 : Value.specialize c b vt = vt := by simpa [Completion.specialize] using hs1
      have e2 : Value.specialize c b vf = vf := by simpa [Completion.specialize] using hs2
      by_cases hkt : k = k2 ∧ t = t2
      · obtain ⟨hk, ht⟩ := hkt
        subst hk
        subst ht
        cases b <;>
          simp [joinCompletion, Completion.specialize, Value.specialize, e1, e2]
      · cases b <;>
          simp [joinCompletion, hkt, Completion.specialize, Value.specialize, e1, e2]
    | joinedAbrupt c2 x y =>
      simp only [joinCompletion]
      rw [Completion.specialize_pn_self]
      cases b <;> simp [hs1, hs2]
    | possiblyNormal c2 x y =>
      simp only [joinCompletion]
      rw [Completion.specialize_pn_self]
      cases b <;> simp [hs1, hs2]
  | joinedAbrupt c2 x y =>
    cases cf <;>
      (simp only [joinCompletion]
       rw [Completion.specialize_pn_self]
       cases b <;> simp [hs1, hs2])
  | possiblyNormal c2 x y =>
    cases cf <;>
      (simp only [joinCompletion]
       rw [Completion.specialize_pn_self]
       cases b <;> simp [hs1, hs2])

/-- C2: join correctness law (§4.4, §8): for any condition and any two
effects captured under its true/false assumptions (modelled by the
captured effects and the realm's pre-fork originals not mentioning the
condition), specializing the joined `Effects` to `condition = true`
reproduces the true side's observable behavior — completion value,
binding deltas, property deltas, residual instructions — and specializing
to `condition = false` reproduces the false side's, exactly. -/
theorem joinEffects_specialize_correct {σ : Type} (ext : Ext σ) (w : σ) (c : Value)
    (e1 e2 : Effects)
    (h1 : Effects.freeOfCond c e1 = true) (h2 : Effects.freeOfCond c e2 = true)
    (hb : ∀ k, Value.usesCond c (ext.origBinding w k) = false)
    (hp : ∀ p, Value.usesCond c (ext.origProp w p) = false) :
    ObsEquiv ext w (specializeEffects c true (joinEffects ext w c e1 e2)) e1 ∧
    ObsEquiv ext w (specializeEffects c false (joinEffects ext w c e1 e2)) e2 := by
  rw [Effects.freeOfCond] at h1 h2
  simp only [Bool.and_eq_true, Bool.not_eq_true'] at h1 h2
  obtain ⟨⟨⟨hc1, hg1⟩, hbm1⟩, hpm1⟩ := h1
  obtain ⟨⟨⟨hc2, hg2⟩, hbm2⟩, hpm2⟩ := h2
  constructor
  · refine ⟨?_, ?_, ?_, ?_⟩
    · show Completion.specialize c true (joinCompletion c e1.completion e2.completion) =
        e1.completion
      rw [joinCompletion_specialize c true _ _ hc1 hc2]
      rfl
    · show Gen.specialize c true (.branch c e1.generator e2.generator) = e1.generator
      simp [Gen.specialize, Gen.specialize_fresh_gen c true _ hg1]
    · intro k
      simpa using
        observe_specialize_joinMap c true (ext.origBinding w) e1.bindings e2.bindings
          hbm1 hbm2 hb k
    · intro p
      simpa using
        observe_specialize_joinMap c true (ext.origProp w) e1.properties e2.properties
          hpm1 hpm2 hp p
  · refine ⟨?_, ?_, ?_, ?_⟩
    · show Completion.specialize c false (joinCompletion c e1.completion e2.completion) =
        e2.completion
      rw [joinCompletion_specialize c false _ _ hc1 hc2]
      rfl
    · show Gen.specialize c false (.branch c e1.generator e2.generator) = e2.generator
      simp [Gen.specialize, Gen.specialize_fresh_gen c false _ hg2]
    · intro k
      simpa using
        observe_specialize_joinMap c false (ext.origBinding w) e1.bindings e2.bindings
          hbm1 hbm2 hb k
    · intro p
      simpa using
        observe_specialize_joinMap c false (ext.origProp w) e1.properties e2.properties
          hpm1 hpm2 hp p

/-! ## Concrete oracles for witnesses and counterexamples -/

/-- A baseline concrete collaborator instance over the trivial world. -/
def extBase : Ext Unit where
  evalCondition := fun _ _ _ => (.ok (.num 1), ())
  toBoolean := fun v =>
    match v with
    | .num 0 => false
    | .undef => false
    | .empty => false
    | _ => true
  evaluateCompletion := fun _ _ _ => (.ok (.compl (.val (.num 5))), ())
  evaluateDirect := fun _ _ _ => (.ok (.compl (.val (.num 7))), ())
  mightNotBeTrue := fun _ _ => .ok true
  mightNotBeFalse := fun _ _ => .ok true
  evaluateForEffects := fun _ _ _ => (.ok construct_empty_effects, ())
  composeWithSaved := fun c _ => (c, ())
  applyEffects := fun _ _ => ()
  origBinding := fun _ _ => .undef
  origProp := fun _ _ => Value.undef

/-- Concrete true-side effects for the join-law witness: value 1, one
residual instruction, a write to slot 0, a property write, one created
object. -/
def effW1 : Effects :=
  { completion := .val (.num 1)
    generator := .emit 10
    bindings := [(0, .num 1)]
    properties := [((3, 4), .num 9)]
    createdObjects := [5] }

/-- Concrete false-side effects for the join-law witness: value 2, a write
to slot 1 only. -/
def effW2 : Effects :=
  { completion := .val (.num 2)
    generator := .empty
    bindings := [(1, .num 2)]
    properties := []
    createdObjects := [] }

/-- Witness for the join correctness law at concrete effects. -/
theorem joinEffects_specialize_correct_witness :
    Effects.freeOfCond (.abs 0) effW1 = true ∧ Effects.freeOfCond (.abs 0) effW2 = true ∧
      (ObsEquiv extBase ()
          (specializeEffects (.abs 0) true (joinEffects extBase () (.abs 0) effW1 effW2)) effW1 ∧
        ObsEquiv extBase ()
          (specializeEffects (.abs 0) false (joinEffects extBase () (.abs 0) effW1 effW2)) effW2) :=
  ⟨by decide, by decide,
    joinEffects_specialize_correct extBase () (.abs 0) effW1 effW2 (by decide) (by decide)
      (fun _ => rfl) (fun _ => rfl)⟩

/-! ## Basic lemmas about the evaluator's building blocks -/

theorem finishDirect_eq_specFinish (res : EvalRes) : finishDirect res = specFinish res := rfl

theorem runDirect_snd {σ : Type} (r : Except Err EvalRes × σ) (p : List (Value × Bool))
    (t : List Event) : (runDirect r p t).2 = ⟨r.2, p, t⟩ := by
  rcases r with ⟨r1, w⟩
  cases r1 <;> rfl

theorem finishJoin_snd {σ : Type} (comp : Completion) (w : σ) (p : List (Value × Bool))
    (t : List Event) : (finishJoin comp w p t).2 = ⟨w, p, t⟩ := by
  cases comp <;> rfl

theorem finishJoin_fst {σ : Type} (comp : Completion) (w : σ) (p : List (Value × Bool))
    (t : List Event) :
    (finishJoin comp w p t).1 =
      if comp.isAbrupt then .error (.thrownCompletion comp)
      else
        match comp with
        | .val v => .ok v
        | _ => .error (.invariantViolation 1) := by
  cases comp <;> rfl

/-- Lemma: `runDirect` over a call agrees with the spec-side `specDirect` on the
result and the final world. -/
theorem runDirect_eq_specDirect {σ : Type}
    (evalFn : Node → σ → List (Value × Bool) → Except Err EvalRes × σ) (n : Node) (w : σ)
    (p : List (Value × Bool)) (t : List Event) :
    (runDirect (evalFn n w p) p t).1 = (specDirect evalFn (some n) w p).1 ∧
      (runDirect (evalFn n w p) p t).2.world = (specDirect evalFn (some n) w p).2 := by
  rcases h : evalFn n w p with ⟨r1, w1⟩
  cases r1 <;> simp [runDirect, specDirect, h, finishDirect_eq_specFinish]

/-- The absent-branch tail of the source (`realm.intrinsics.undefined`
into the common tail) agrees with the spec-side no-value default. -/
theorem finishDirect_undef_eq :
    finishDirect (.compl (.val .undef)) = specFinish (.compl (.val .empty)) := rfl

theorem specDirect_snd_some {σ : Type}
    (evalFn : Node → σ → List (Value × Bool) → Except Err EvalRes × σ) (n : Node) (w : σ)
    (p : List (Value × Bool)) : (specDirect evalFn (some n) w p).2 = (evalFn n w p).2 := by
  rcases h : evalFn n w p with ⟨r1, w1⟩
  cases r1 <;> simp [specDirect, h]

/-- Helper for C5: the fork procedure leaves the path-condition stack as
it found it, on every outcome. -/
theorem ewac_preserves_path {σ : Type} (ext : Ext σ) (c : Value) (cons : Node)
    (alt : Option Node) (s : St σ) :
    (evaluateWithAbstractConditional ext c cons alt s).2.path = s.path := by
  unfold evaluateWithAbstractConditional
  rcases h1 : ext.evaluateForEffects cons s.world ((c, true) :: s.path) with ⟨r1, w1⟩
  cases r1 with
  | error e =>
    by_cases he : e = Err.infeasible
    · subst he
      cases alt with
      | some a => simp [runDirect_snd]
      | none => simp
    · simp [he]
  | ok eff1 =>
    cases alt with
    | some a =>
      rcases h2 : ext.evaluateForEffects a w1 ((c, false) :: s.path) with ⟨r2, w2⟩
      cases r2 with
      | error e =>
        by_cases he : e = Err.infeasible
        · subst he
          simp [h2, runDirect_snd]
        · simp [h2, he]
      | ok eff2 => simp [h2, finishJoin_snd]
    | none => simp [finishJoin_snd]

/-- C5: path-condition stack balance: under the contract that
`Path.withCondition` / `Path.withInverseCondition` pop their pushed
assumption on every exit path (built into the model) and that the
collaborators keep the stack balanced across their own calls (they
receive it read-only), the stack after any call of the conditional
evaluator equals the stack before it — on normal return, on a raised
completion or other failure, and on internal infeasible recovery. -/
theorem evaluate_preserves_path {σ : Type} (ext : Ext σ) (ast : AstIf) (s : St σ) :
    (evaluate ext ast s).2.path = s.path := by
  unfold evaluate
  rcases h0 : ext.evalCondition ast.test s.world s.path with ⟨r0, w0⟩
  cases r0 with
  | error e => simp
  | ok v =>
    by_cases hc : v.isConcrete
    · by_cases hb : ext.toBoolean v
      · simp [hc, hb, runDirect_snd]
      · cases hA : ast.alternate with
        | some a => simp [hc, hb, hA, runDirect_snd]
        | none => simp [hc, hb, hA]
    · by_cases hq1 : ∃ b1, ext.mightNotBeTrue v s.path = .ok b1
      · obtain ⟨b1, hq1⟩ := hq1
        cases b1 with
        | false => simp [hc, Value.isAbstract, hq1, runDirect_snd]
        | true =>
          by_cases hq2 : ∃ b2, ext.mightNotBeFalse v s.path = .ok b2
          · obtain ⟨b2, hq2⟩ := hq2
            cases b2 with
            | false =>
              cases hA : ast.alternate with
              | some a => simp [hc, Value.isAbstract, hq1, hq2, hA, runDirect_snd]
              | none => simp [hc, Value.isAbstract, hq1, hq2, hA]
            | true =>
              have := ewac_preserves_path ext v ast.consequent ast.alternate
                ⟨w0, s.path, s.trace⟩
              simp [hc, Value.isAbstract, hq1, hq2]
              exact this
          · rcases hq2e : ext.mightNotBeFalse v s.path with e | b2
            · simp [hc, Value.isAbstract, hq1, hq2e]
            · exact absurd ⟨b2, hq2e⟩ hq2
      · rcases hq1e : ext.mightNotBeTrue v s.path with e | b1
        · simp [hc, Value.isAbstract, hq1e]
        · exact absurd ⟨b1, hq1e⟩ hq1

/-! ## Trace projections -/

/-- The arguments of the `applyEffects` calls recorded in a trace. -/
def applyEvents (t : List Event) : List Effects :=
  t.filterMap fun e =>
    match e with
    | .applyCall x => some x
    | _ => none

/-- The results of the `Join.joinEffects` calls recorded in a trace. -/
def joinEvents (t : List Event) : List Effects :=
  t.filterMap fun e =>
    match e with
    | .joinCall x => some x
    | _ => none

/-- Helper for C6: in the fork procedure, the effects passed to
`applyEffects` are exactly the results of the join calls of the same run,
and there is at most one. -/
theorem ewac_apply_once {σ : Type} (ext : Ext σ) (c : Value) (cons : Node)
    (alt : Option Node) (s : St σ) :
    ∃ tnew, (evaluateWithAbstractConditional ext c cons alt s).2.trace = tnew ++ s.trace ∧
      applyEvents tnew = joinEvents tnew ∧ (joinEvents tnew).length ≤ 1 := by
  unfold evaluateWithAbstractConditional
  rcases h1 : ext.evaluateForEffects cons s.world ((c, true) :: s.path) with ⟨r1, w1⟩
  cases r1 with
  | error e =>
    by_cases he : e = Err.infeasible
    · subst he
      cases alt with
      | some a =>
        refine ⟨[.sandbox cons, .push c true], ?_, rfl, by simp [joinEvents]⟩
        simp [runDirect_snd]
      | none => exact ⟨[.sandbox cons, .push c true], by simp, rfl, by simp [joinEvents]⟩
    · exact ⟨[.sandbox cons, .push c true], by simp [he], rfl, by simp [joinEvents]⟩
  | ok eff1 =>
    cases alt with
    | some a =>
      rcases h2 : ext.evaluateForEffects a w1 ((c, false) :: s.path) with ⟨r2, w2⟩
      cases r2 with
      | error e =>
        by_cases he : e = Err.infeasible
        · subst he
          refine ⟨[.sandbox a, .push c false, .sandbox cons, .push c true], ?_, rfl,
            by simp [joinEvents]⟩
          simp [h2, runDirect_snd]
        · exact ⟨[.sandbox a, .push c false, .sandbox cons, .push c true],
            by simp [h2, he], rfl, by simp [joinEvents]⟩
      | ok eff2 =>
        by_cases hpn : (joinEffects ext w2 c eff1 eff2).completion.isPossiblyNormal
        · refine ⟨[.applyCall (joinEffects ext w2 c eff1 eff2), .compose,
            .joinCall (joinEffects ext w2 c eff1 eff2), .sandbox a, .push c false,
            .sandbox cons, .push c true], ?_, rfl, by simp [joinEvents]⟩
          simp [h2, hpn, finishJoin_snd]
        · refine ⟨[.applyCall (joinEffects ext w2 c eff1 eff2),
            .joinCall (joinEffects ext w2 c eff1 eff2), .sandbox a, .push c false,
            .sandbox cons, .push c true], ?_, rfl, by simp [joinEvents]⟩
          simp [h2, hpn, finishJoin_snd]
    | none =>
      by_cases hpn :
        (joinEffects ext w1 c eff1 construct_empty_effects).completion.isPossiblyNormal
      · refine ⟨[.applyCall (joinEffects ext w1 c eff1 construct_empty_effects), .compose,
          .joinCall (joinEffects ext w1 c eff1 construct_empty_effects), .push c false,
          .sandbox cons, .push c true], ?_, rfl, by simp [joinEvents]⟩
        simp [hpn, finishJoin_snd]
      · refine ⟨[.applyCall (joinEffects ext w1 c eff1 construct_empty_effects),
          .joinCall (joinEffects ext w1 c eff1 construct_empty_effects), .push c false,
          .sandbox cons, .push c true], ?_, rfl, by simp [joinEvents]⟩
        simp [hpn, finishJoin_snd]

/-- C6: `applyEffects` is invoked at most once per conditional
evaluation, and only on an `Effects` that is the result of the join of
the same run — never on a captured branch's own (possibly discarded)
`Effects`, and never at all on the concrete, provably-resolved, or
infeasibility-fallback paths (where no join result exists). -/
theorem evaluate_applyEffects_at_most_once {σ : Type} (ext : Ext σ) (ast : AstIf)
    (s : St σ) :
    ∃ tnew, (evaluate ext ast s).2.trace = tnew ++ s.trace ∧
      applyEvents tnew = joinEvents tnew ∧ (joinEvents tnew).length ≤ 1 := by
  unfold evaluate
  rcases h0 : ext.evalCondition ast.test s.world s.path with ⟨r0, w0⟩
  cases r0 with
  | error e => exact ⟨[], by simp, rfl, by simp [joinEvents]⟩
  | ok v =>
    by_cases hc : v.isConcrete
    · by_cases hb : ext.toBoolean v
      · exact ⟨[], by simp [hc, hb, runDirect_snd], rfl, by simp [joinEvents]⟩
      · cases hA : ast.alternate with
        | some a => exact ⟨[], by simp [hc, hb, hA, runDirect_snd], rfl, by simp [joinEvents]⟩
        | none => exact ⟨[], by simp [hc, hb, hA], rfl, by simp [joinEvents]⟩
    · rcases hq1 : ext.mightNotBeTrue v s.path with e | b1
      · exact ⟨[], by simp [hc, Value.isAbstract, hq1], rfl, by simp [joinEvents]⟩
      · cases b1 with
        | false =>
          exact ⟨[], by simp [hc, Value.isAbstract, hq1, runDirect_snd], rfl,
            by simp [joinEvents]⟩
        | true =>
          rcases hq2 : ext.mightNotBeFalse v s.path with e | b2
          · exact ⟨[], by simp [hc, Value.isAbstract, hq1, hq2], rfl, by simp [joinEvents]⟩
          · cases b2 with
            | false =>
              cases hA : ast.alternate with
              | some a =>
                exact ⟨[], by simp [hc, Value.isAbstract, hq1, hq2, hA, runDirect_snd], rfl,
                  by simp [joinEvents]⟩
              | none =>
                exact ⟨[], by simp [hc, Value.isAbstract, hq1, hq2, hA], rfl,
                  by simp [joinEvents]⟩
            | true =>
              obtain ⟨tnew, ht, happ, hlen⟩ := ewac_apply_once ext v ast.consequent
                ast.alternate ⟨w0, s.path, s.trace⟩
              refine ⟨tnew, ?_, happ, hlen⟩
              simpa [hc, Value.isAbstract, hq1, hq2] using ht

/-! ## C1, C8: direct-evaluation paths -/

/-- C1: for a concrete condition value the conditional evaluator
evaluates exactly one branch directly in the real environment — the
consequent if the condition is truthy, else the alternate if present,
else the no-value default — normalizes the resulting completion, throws
it if Abrupt, and otherwise returns its Value; the outcome and final
world agree with directly evaluating the selected branch as the spec
words it, and the trace is unchanged: neither the sandbox nor the join
engine (nor assumption pushing) is invoked. -/
theorem evaluate_concrete_direct {σ : Type} (ext : Ext σ) (ast : AstIf) (s : St σ)
    (v : Value) (w0 : σ)
    (hcond : ext.evalCondition ast.test s.world s.path = (.ok v, w0))
    (hconc : v.isConcrete = true) :
    (evaluate ext ast s).1 =
        (specDirect ext.evaluateCompletion
          (if ext.toBoolean v then some ast.consequent else ast.alternate) w0 s.path).1 ∧
      (evaluate ext ast s).2.world =
        (specDirect ext.evaluateCompletion
          (if ext.toBoolean v then some ast.consequent else ast.alternate) w0 s.path).2 ∧
      (evaluate ext ast s).2.trace = s.trace ∧ (evaluate ext ast s).2.path = s.path := by
  unfold evaluate
  rw [hcond]
  by_cases hb : ext.toBoolean v
  · have h := runDirect_eq_specDirect ext.evaluateCompletion ast.consequent w0 s.path s.trace
    simp [hconc, hb, h.1, h.2, runDirect_snd, specDirect_snd_some]
  · cases hA : ast.alternate with
    | some a =>
      have h := runDirect_eq_specDirect ext.evaluateCompletion a w0 s.path s.trace
      simp [hconc, hb, hA, h.1, h.2, runDirect_snd, specDirect_snd_some]
    | none => simp [hconc, hb, hA, specDirect, finishDirect_undef_eq]

/-- C8: for an abstract condition that is provably resolved under the
current path conditions, the evaluator evaluates only the selected branch
(consequent when `mightNotBeTrue()` is false; alternate or the no-value
default when `mightNotBeFalse()` is false) directly in the real
environment, with the same normalization / raise-if-abrupt / return
treatment as the concrete case, and the trace is unchanged: the sandbox,
the join engine, and assumption pushing are never invoked. -/
theorem evaluate_resolved_direct {σ : Type} (ext : Ext σ) (ast : AstIf) (s : St σ)
    (v : Value) (w0 : σ)
    (hcond : ext.evalCondition ast.test s.world s.path = (.ok v, w0))
    (habs : v.isConcrete = false) :
    (ext.mightNotBeTrue v s.path = .ok false →
        (evaluate ext ast s).1 =
            (specDirect ext.evaluateDirect (some ast.consequent) w0 s.path).1 ∧
          (evaluate ext ast s).2.world =
            (specDirect ext.evaluateDirect (some ast.consequent) w0 s.path).2 ∧
          (evaluate ext ast s).2.trace = s.trace ∧ (evaluate ext ast s).2.path = s.path) ∧
      (ext.mightNotBeTrue v s.path = .ok true → ext.mightNotBeFalse v s.path = .ok false →
        (evaluate ext ast s).1 = (specDirect ext.evaluateDirect ast.alternate w0 s.path).1 ∧
          (evaluate ext ast s).2.world =
            (specDirect ext.evaluateDirect ast.alternate w0 s.path).2 ∧
          (evaluate ext ast s).2.trace = s.trace ∧ (evaluate ext ast s).2.path = s.path) := by
  constructor
  · intro hq1
    unfold evaluate
    rw [hcond]
    have h := runDirect_eq_specDirect ext.evaluateDirect ast.consequent w0 s.path s.trace
    simp [habs, Value.isAbstract, hq1, h.1, h.2, runDirect_snd, specDirect_snd_some]
  · intro hq1 hq2
    unfold evaluate
    rw [hcond]
    cases hA : ast.alternate with
    | some a =>
      have h := runDirect_eq_specDirect ext.evaluateDirect a w0 s.path s.trace
      simp [habs, Value.isAbstract, hq1, hq2, hA, h.1, h.2, runDirect_snd, specDirect_snd_some]
    | none => simp [habs, Value.isAbstract, hq1, hq2, hA, specDirect, finishDirect_undef_eq]

/-! ## Concrete inputs used by the witnesses -/

/-- A concrete if-statement node. -/
def astW : AstIf := ⟨⟨0⟩, ⟨1⟩, some ⟨2⟩⟩

/-- A concrete starting state over the trivial world. -/
def s0 : St Unit := ⟨(), [], []⟩

/-- Witness for C1 at a concrete truthy condition. -/
theorem evaluate_concrete_direct_witness :
    extBase.evalCondition astW.test s0.world s0.path = (.ok (.num 1), ()) ∧
      Value.isConcrete (.num 1) = true ∧
      ((evaluate extBase astW s0).1 =
          (specDirect extBase.evaluateCompletion
            (if extBase.toBoolean (.num 1) then some astW.consequent else astW.alternate)
            () s0.path).1 ∧
        (evaluate extBase astW s0).2.world =
          (specDirect extBase.evaluateCompletion
            (if extBase.toBoolean (.num 1) then some astW.consequent else astW.alternate)
            () s0.path).2 ∧
        (evaluate extBase astW s0).2.trace = s0.trace ∧
        (evaluate extBase astW s0).2.path = s0.path) :=
  ⟨rfl, rfl, evaluate_concrete_direct extBase astW s0 (.num 1) () rfl rfl⟩

/-- Collaborators for the C8 witness, first part: an abstract condition
that is provably true (`mightNotBeTrue` answers `false`). -/
def extC8T : Ext Unit :=
  { extBase with
    evalCondition := fun _ _ _ => (.ok (.abs 0), ())
    mightNotBeTrue := fun _ _ => .ok false }

/-- Collaborators for the C8 witness, second part: an abstract condition
that is provably false (`mightNotBeFalse` answers `false`). -/
def extC8F : Ext Unit :=
  { extBase with
    evalCondition := fun _ _ _ => (.ok (.abs 0), ())
    mightNotBeFalse := fun _ _ => .ok false }

/-- Witness for C8 at both provably-resolved scenarios. -/
theorem evaluate_resolved_direct_witness :
    (extC8T.evalCondition astW.test s0.world s0.path = (.ok (.abs 0), ()) ∧
        Value.isConcrete (.abs 0) = false ∧ extC8T.mightNotBeTrue (.abs 0) s0.path = .ok false ∧
        (evaluate extC8T astW s0).1 =
          (specDirect extC8T.evaluateDirect (some astW.consequent) () s0.path).1 ∧
        (evaluate extC8T astW s0).2.trace = s0.trace) ∧
      (extC8F.mightNotBeTrue (.abs 0) s0.path = .ok true ∧
        extC8F.mightNotBeFalse (.abs 0) s0.path = .ok false ∧
        (evaluate extC8F astW s0).1 =
          (specDirect extC8F.evaluateDirect astW.alternate () s0.path).1 ∧
        (evaluate extC8F astW s0).2.trace = s0.trace) := by
  constructor
  · refine ⟨rfl, rfl, rfl, ?_, ?_⟩
    · exact ((evaluate_resolved_direct extC8T astW s0 (.abs 0) () rfl rfl).1 rfl).1
    · exact ((evaluate_resolved_direct extC8T astW s0 (.abs 0) () rfl rfl).1 rfl).2.2.1
  · refine ⟨rfl, rfl, ?_, ?_⟩
    · exact ((evaluate_resolved_direct extC8F astW s0 (.abs 0) () rfl rfl).2 rfl rfl).1
    · exact ((evaluate_resolved_direct extC8F astW s0 (.abs 0) () rfl rfl).2 rfl rfl).2.2.1

/-! ## C3, C4: the fork path -/

/-- C3: when a sandboxed call of the fork raises the infeasible-path
signal, the fork is abandoned: the assumption is popped (the stack is
unchanged), the other branch — or the no-value default when the alternate
is absent — is evaluated directly in the real environment with the usual
normalize / raise-if-abrupt / return treatment, and the trace shows the
abandoned sandbox attempts only: no join and no `applyEffects` call
occurs. -/
theorem ewac_infeasible_fallback {σ : Type} (ext : Ext σ) (c : Value) (cons : Node)
    (alt : Option Node) (s : St σ) :
    ((ext.evaluateForEffects cons s.world ((c, true) :: s.path)).1 = .error .infeasible →
        (evaluateWithAbstractConditional ext c cons alt s).1 =
            (specDirect ext.evaluateCompletion alt
              (ext.evaluateForEffects cons s.world ((c, true) :: s.path)).2 s.path).1 ∧
          (evaluateWithAbstractConditional ext c cons alt s).2.path = s.path ∧
          (evaluateWithAbstractConditional ext c cons alt s).2.trace =
            [Event.sandbox cons, Event.push c true] ++ s.trace) ∧
      (∀ eff1 w1 a, alt = some a →
        ext.evaluateForEffects cons s.world ((c, true) :: s.path) = (.ok eff1, w1) →
        (ext.evaluateForEffects a w1 ((c, false) :: s.path)).1 = .error .infeasible →
        (evaluateWithAbstractConditional ext c cons alt s).1 =
            (specDirect ext.evaluateDirect (some cons)
              (ext.evaluateForEffects a w1 ((c, false) :: s.path)).2 s.path).1 ∧
          (evaluateWithAbstractConditional ext c cons alt s).2.path = s.path ∧
          (evaluateWithAbstractConditional ext c cons alt s).2.trace =
            [Event.sandbox a, Event.push c false, Event.sandbox cons, Event.push c true]
              ++ s.trace) := by
  constructor
  · intro h1
    unfold evaluateWithAbstractConditional
    rcases h1p : ext.evaluateForEffects cons s.world ((c, true) :: s.path) with ⟨r1, w1⟩
    rw [h1p] at h1
    simp only at h1
    subst h1
    cases alt with
    | some a =>
      have h := runDirect_eq_specDirect ext.evaluateCompletion a w1 s.path
        (.sandbox cons :: .push c true :: s.trace)
      simp [runDirect_snd, h.1, specDirect_snd_some]
    | none => simp [specDirect, finishDirect_undef_eq]
  · intro eff1 w1 a hA h1 h2
    subst hA
    rcases h2p : ext.evaluateForEffects a w1 ((c, false) :: s.path) with ⟨r2, w2⟩
    rw [h2p] at h2
    simp only at h2
    subst h2
    have h := runDirect_eq_specDirect ext.evaluateDirect cons w2 s.path
      (.sandbox a :: .push c false :: .sandbox cons :: .push c true :: s.trace)
    unfold evaluateWithAbstractConditional
    simp [h1, h2p, runDirect_snd, h.1, specDirect_snd_some]

/-- C4: on the full fork path — both sandboxed calls succeed, with an
empty `Effects` synthesized when the alternate is absent — the two
`Effects` are joined; if the joined completion is PossiblyNormal it is
composed with any saved completion before the commit; the joined
`Effects` are committed by a single `applyEffects` call (visible both in
the final world and as the single `applyCall` event, which follows the
compose and join events); finally the resulting completion is thrown if
Abrupt, otherwise its Value is returned. -/
theorem ewac_fork_join_commit {σ : Type} (ext : Ext σ) (c : Value) (cons : Node)
    (alt : Option Node) (s : St σ) (eff1 eff2 : Effects) (w1 w2 : σ)
    (h1 : ext.evaluateForEffects cons s.world ((c, true) :: s.path) = (.ok eff1, w1))
    (h2 : (match alt with
           | some a => ext.evaluateForEffects a w1 ((c, false) :: s.path)
           | none => (.ok construct_empty_effects, w1)) = (.ok eff2, w2)) :
    (evaluateWithAbstractConditional ext c cons alt s).2.world =
        ext.applyEffects (joinEffects ext w2 c eff1 eff2)
          (if (joinEffects ext w2 c eff1 eff2).completion.isPossiblyNormal
            then (ext.composeWithSaved (joinEffects ext w2 c eff1 eff2).completion w2).2
            else w2) ∧
      (evaluateWithAbstractConditional ext c cons alt s).2.path = s.path ∧
      (evaluateWithAbstractConditional ext c cons alt s).2.trace =
        Event.applyCall (joinEffects ext w2 c eff1 eff2) ::
          (if (joinEffects ext w2 c eff1 eff2).completion.isPossiblyNormal
            then [Event.compose] else []) ++
          Event.joinCall (joinEffects ext w2 c eff1 eff2) ::
          (match alt with
           | some a => [Event.sandbox a, Event.push c false]
           | none => [Event.push c false]) ++
          [Event.sandbox cons, Event.push c true] ++ s.trace ∧
      (evaluateWithAbstractConditional ext c cons alt s).1 =
        (let comp1 :=
          if (joinEffects ext w2 c eff1 eff2).completion.isPossiblyNormal
            then (ext.composeWithSaved (joinEffects ext w2 c eff1 eff2).completion w2).1
            else (joinEffects ext w2 c eff1 eff2).completion
         if comp1.isAbrupt then .error (.thrownCompletion comp1)
         else
           match comp1 with
           | .val v => .ok v
           | _ => .error (.invariantViolation 1)) := by
  unfold evaluateWithAbstractConditional
  cases alt with
  | some a =>
    simp only at h2
    by_cases hpn : (joinEffects ext w2 c eff1 eff2).completion.isPossiblyNormal
    · simp [h1, h2, hpn, finishJoin_snd, finishJoin_fst]
    · simp [h1, h2, hpn, finishJoin_snd, finishJoin_fst]
  | none =>
    simp only [Prod.mk.injEq, Except.ok.injEq] at h2
    obtain ⟨h2a, h2b⟩ := h2
    subst h2a
    subst h2b
    by_cases hpn :
      (joinEffects ext w1 c eff1 construct_empty_effects).completion.isPossiblyNormal
    · simp [h1, hpn, finishJoin_snd, finishJoin_fst]
    · simp [h1, hpn, finishJoin_snd, finishJoin_fst]

/-- Collaborators for the C3 witness, first part: the first sandboxed
call always raises the infeasible-path signal. -/
def extC3a : Ext Unit :=
  { extBase with evaluateForEffects := fun _ _ _ => (.error .infeasible, ()) }

/-- Collaborators for the C3 witness, second part: a sandboxed call under
a positive assumption succeeds, one under a negative assumption raises
the infeasible-path signal. -/
def extC3b : Ext Unit :=
  { extBase with
    evaluateForEffects := fun _ _ p =>
      match p with
      | (_, true) :: _ => (.ok construct_empty_effects, ())
      | _ => (.error .infeasible, ()) }

/-- Witness for C3 at both infeasible scenarios. -/
theorem ewac_infeasible_fallback_witness :
    ((extC3a.evaluateForEffects astW.consequent s0.world ((Value.abs 0, true) :: s0.path)).1 =
        .error .infeasible ∧
      (evaluateWithAbstractConditional extC3a (.abs 0) astW.consequent astW.alternate s0).1 =
        (specDirect extC3a.evaluateCompletion astW.alternate
          (extC3a.evaluateForEffects astW.consequent s0.world
            ((Value.abs 0, true) :: s0.path)).2 s0.path).1) ∧
      (extC3b.evaluateForEffects astW.consequent s0.world ((Value.abs 0, true) :: s0.path) =
          (.ok construct_empty_effects, ()) ∧
        (extC3b.evaluateForEffects (⟨2⟩ : Node) () ((Value.abs 0, false) :: s0.path)).1 =
          .error .infeasible ∧
        (evaluateWithAbstractConditional extC3b (.abs 0) astW.consequent
            astW.alternate s0).2.trace =
          [Event.sandbox ⟨2⟩, Event.push (.abs 0) false, Event.sandbox astW.consequent,
            Event.push (.abs 0) true] ++ s0.trace) :=
  ⟨⟨rfl,
      ((ewac_infeasible_fallback extC3a (.abs 0) astW.consequent astW.alternate s0).1 rfl).1⟩,
    rfl, rfl,
    ((ewac_infeasible_fallback extC3b (.abs 0) astW.consequent astW.alternate s0).2
        construct_empty_effects () ⟨2⟩ rfl rfl rfl).2.2⟩

/-- Witness for C4 on a successful fork. -/
theorem ewac_fork_join_commit_witness :
    extBase.evaluateForEffects astW.consequent s0.world ((Value.abs 0, true) :: s0.path) =
        (.ok construct_empty_effects, ()) ∧
      (evaluateWithAbstractConditional extBase (.abs 0) astW.consequent
          astW.alternate s0).2.trace =
        Event.applyCall (joinEffects extBase () (.abs 0) construct_empty_effects
            construct_empty_effects) ::
          (if (joinEffects extBase () (.abs 0) construct_empty_effects
              construct_empty_effects).completion.isPossiblyNormal
            then [Event.compose] else []) ++
          Event.joinCall (joinEffects extBase () (.abs 0) construct_empty_effects
            construct_empty_effects) ::
          (match astW.alternate with
           | some a => [Event.sandbox a, Event.push (Value.abs 0) false]
           | none => [Event.push (Value.abs 0) false]) ++
          [Event.sandbox astW.consequent, Event.push (Value.abs 0) true] ++ s0.trace :=
  ⟨rfl,
    (ewac_fork_join_commit extBase (.abs 0) astW.consequent astW.alternate s0
        construct_empty_effects construct_empty_effects () () rfl rfl).2.2.1⟩

/-! ## C7: infeasible-path recovery and propagation -/

/-- Collaborators for the C7 counterexample: the condition is abstract and
the feasibility query `mightNotBeTrue` itself raises the infeasible-path
signal (per §4.2 it may), which `evaluate` calls outside any recovery. -/
def extC7 : Ext Unit :=
  { extBase with
    evalCondition := fun _ _ _ => (.ok (.abs 0), ())
    mightNotBeTrue := fun _ _ => .error .infeasible }

/-- C7 counterexample: the infeasible-path signal raised by the
feasibility predicate query `mightNotBeTrue` escapes the conditional
evaluator unrecovered, refuting the claim that the signal is always
recovered locally for every place it can arise. -/
theorem evaluate_query_infeasible_escapes :
    (evaluate extC7 astW s0).1 = .error .infeasible := rfl

/-- C7 amended: the infeasible-path signal raised by either
sandboxed call is recovered locally (the fork falls back to direct
evaluation of the other branch); any other failure raised by a sandboxed
call propagates out of the fork unchanged; but a failure raised by the
feasibility predicate queries — including the infeasible-path signal —
propagates out of `evaluate` unchanged instead of being recovered. -/
theorem infeasible_recovery_amended {σ : Type} (ext : Ext σ) (c : Value) (cons : Node)
    (alt : Option Node) (s : St σ) (ast : AstIf) (v : Value) (w0 : σ) (e : Err) :
    ((ext.evaluateForEffects cons s.world ((c, true) :: s.path)).1 = .error .infeasible →
        (evaluateWithAbstractConditional ext c cons alt s).1 =
          (specDirect ext.evaluateCompletion alt
            (ext.evaluateForEffects cons s.world ((c, true) :: s.path)).2 s.path).1) ∧
      (∀ eff1 w1 a,
        alt = some a →
        ext.evaluateForEffects cons s.world ((c, true) :: s.path) = (.ok eff1, w1) →
        (ext.evaluateForEffects a w1 ((c, false) :: s.path)).1 = .error .infeasible →
        (evaluateWithAbstractConditional ext c cons alt s).1 =
          (specDirect ext.evaluateDirect (some cons)
            (ext.evaluateForEffects a w1 ((c, false) :: s.path)).2 s.path).1) ∧
      (e ≠ .infeasible →
        (ext.evaluateForEffects cons s.world ((c, true) :: s.path)).1 = .error e →
        (evaluateWithAbstractConditional ext c cons alt s).1 = .error e) ∧
      (e ≠ .infeasible →
        ∀ eff1 w1 a,
          alt = some a →
          ext.evaluateForEffects cons s.world ((c, true) :: s.path) = (.ok eff1, w1) →
          (ext.evaluateForEffects a w1 ((c, false) :: s.path)).1 = .error e →
          (evaluateWithAbstractConditional ext c cons alt s).1 = .error e) ∧
      (ext.evalCondition ast.test s.world s.path = (.ok v, w0) →
        v.isConcrete = false →
        ext.mightNotBeTrue v s.path = .error e →
        (evaluate ext ast s).1 = .error e) := by
  refine ⟨?_, ?_, ?_, ?_, ?_⟩
  · intro h1
    unfold evaluateWithAbstractConditional
    rcases h1p : ext.evaluateForEffects cons s.world ((c, true) :: s.path) with ⟨r1, w1⟩
    rw [h1p] at h1
    simp only at h1
    subst h1
    cases alt with
    | some a =>
      have h := runDirect_eq_specDirect ext.evaluateCompletion a w1 s.path
        (.sandbox cons :: .push c true :: s.trace)
      simp [h.1, specDirect_snd_some]
    | none => simp [specDirect, finishDirect_undef_eq]
  · intro eff1 w1 a hA h1 h2
    subst hA
    rcases h2p : ext.evaluateForEffects a w1 ((c, false) :: s.path) with ⟨r2, w2⟩
    rw [h2p] at h2
    simp only at h2
    subst h2
    have h := runDirect_eq_specDirect ext.evaluateDirect cons w2 s.path
      (.sandbox a :: .push c false :: .sandbox cons :: .push c true :: s.trace)
    unfold evaluateWithAbstractConditional
    simp [h1, h2p, h.1, specDirect_snd_some]
  · intro he h1
    unfold evaluateWithAbstractConditional
    rcases h1p : ext.evaluateForEffects cons s.world ((c, true) :: s.path) with ⟨r1, w1⟩
    rw [h1p] at h1
    simp only at h1
    subst h1
    simp [he]
  · intro he eff1 w1 a hA h1 h2
    subst hA
    rcases h2p : ext.evaluateForEffects a w1 ((c, false) :: s.path) with ⟨r2, w2⟩
    rw [h2p] at h2
    simp only at h2
    subst h2
    unfold evaluateWithAbstractConditional
    simp [h1, h2p, he]
  · intro hcond habs hq
    unfold evaluate
    rw [hcond]
    simp [habs, Value.isAbstract, hq]

/-- Collaborators for the C7 amended witness: the first sandboxed call
raises an unrelated host fault, which must propagate unchanged. -/
def extC7b : Ext Unit :=
  { extBase with evaluateForEffects := fun _ _ _ => (.error (.host 42), ()) }

/-- Witness for the amended C7: a host fault from the first sandboxed
call propagates unchanged, and a query-raised signal propagates out of
`evaluate`. -/
theorem infeasible_recovery_amended_witness :
    (Err.host 42 ≠ Err.infeasible ∧
        (extC7b.evaluateForEffects astW.consequent s0.world
            ((Value.abs 0, true) :: s0.path)).1 = .error (.host 42) ∧
        (evaluateWithAbstractConditional extC7b (.abs 0) astW.consequent
            astW.alternate s0).1 = .error (.host 42)) ∧
      (extC7.evalCondition astW.test s0.world s0.path = (.ok (.abs 0), ()) ∧
        extC7.mightNotBeTrue (.abs 0) s0.path = .error .infeasible ∧
        (evaluate extC7 astW s0).1 = .error .infeasible) :=
  ⟨⟨by decide, rfl,
      (infeasible_recovery_amended extC7b (.abs 0) astW.consequent astW.alternate s0 astW
          (.abs 0) () (.host 42)).2.2.1 (by decide) rfl⟩,
    ⟨rfl, rfl,
      (infeasible_recovery_amended extC7 (.abs 0) astW.consequent astW.alternate s0 astW
          (.abs 0) () .infeasible).2.2.2.2 rfl rfl rfl⟩⟩

/-! ## C9: where completion normalization is (and is not) applied -/

/-- Collaborators for the C9 counterexample: the true-side sandbox
captures a throw, the false side is empty, so the join yields a
PossiblyNormal completion; composing it with the saved completion yields
a plain normal completion that carries the no-value marker. -/
def extC9 : Ext Unit :=
  { extBase with
    evaluateForEffects := fun _ _ p =>
      match p with
      | (_, true) :: _ =>
        (.ok { completion := .abrupt .thr (.num 3) none
               generator := .empty
               bindings := []
               properties := []
               createdObjects := [] }, ())
      | _ => (.ok construct_empty_effects, ())
    composeWithSaved := fun _ _ => (.val .empty, ()) }

/-- C9 counterexample: on the fork path the evaluator returns the
final completion's value without normalizing it: here the composed
completion carries the no-value marker and `evaluateWithAbstractConditional`
returns that marker itself, whereas the claimed uniform `UpdateEmpty`
normalization with the undefined default would have produced `undefined`. -/
theorem ewac_no_updateEmpty_on_fork :
    (evaluateWithAbstractConditional extC9 (.abs 0) astW.consequent astW.alternate s0).1 =
        .ok .empty ∧
      UpdateEmpty (.val .empty) .undef = .val .undef :=
  ⟨rfl, rfl⟩

/-- C9 amended: completion normalization (`UpdateEmpty` with the
undefined default) is applied before return or raise on every
direct-evaluation path (concrete, provably-resolved, and both
infeasibility fallbacks — here exhibited on a fallback: a branch
completion carrying the no-value marker comes back as `undefined`), but
the fork path returns or throws the joined (and possibly composed)
completion as produced, with no further normalization: a no-value marker
in the final completion escapes unchanged. -/
theorem updateEmpty_application_amended {σ : Type} (ext : Ext σ) (c : Value) (cons : Node)
    (alt : Option Node) (s : St σ) :
    ((ext.evaluateForEffects cons s.world ((c, true) :: s.path)).1 = .error .infeasible →
        ∀ a wr,
          alt = some a →
          ext.evaluateCompletion a
              (ext.evaluateForEffects cons s.world ((c, true) :: s.path)).2 s.path =
            (.ok (.compl (.val .empty)), wr) →
          (evaluateWithAbstractConditional ext c cons alt s).1 = .ok .undef) ∧
      (∀ eff1 eff2 w1 w2,
        ext.evaluateForEffects cons s.world ((c, true) :: s.path) = (.ok eff1, w1) →
        (match alt with
         | some a => ext.evaluateForEffects a w1 ((c, false) :: s.path)
         | none => (.ok construct_empty_effects, w1)) = (.ok eff2, w2) →
        (joinEffects ext w2 c eff1 eff2).completion.isPossiblyNormal = true →
        (ext.composeWithSaved (joinEffects ext w2 c eff1 eff2).completion w2).1 =
          .val .empty →
        (evaluateWithAbstractConditional ext c cons alt s).1 = .ok .empty) := by
  constructor
  · intro h1 a wr hA hc
    subst hA
    rcases h1p : ext.evaluateForEffects cons s.world ((c, true) :: s.path) with ⟨r1, w1⟩
    rw [h1p] at h1 hc
    simp only at h1 hc
    subst h1
    unfold evaluateWithAbstractConditional
    simp [h1p, runDirect, hc, finishDirect, UpdateEmpty, Completion.isAbrupt]
  · intro eff1 eff2 w1 w2 h1 h2 hpn hcomp
    unfold evaluateWithAbstractConditional
    cases alt with
    | some a =>
      simp only at h2
      simp [h1, h2, hpn, hcomp, finishJoin_fst, Completion.isAbrupt]
    | none =>
      simp only [Prod.mk.injEq, Except.ok.injEq] at h2
      obtain ⟨h2a, h2b⟩ := h2
      subst h2a
      subst h2b
      simp [h1, hpn, hcomp, finishJoin_fst, Completion.isAbrupt]

/-- Collaborators for the C9 amended witness, first part: the first
sandboxed call is infeasible, and the direct evaluation of the alternate
produces a completion carrying the no-value marker. -/
def extC9b : Ext Unit :=
  { extBase with
    evaluateForEffects := fun _ _ _ => (.error .infeasible, ())
    evaluateCompletion := fun _ _ _ => (.ok (.compl (.val .empty)), ()) }

/-- Witness for the amended C9: the fallback normalizes the marker to
`undefined`; the fork path lets the marker through. -/
theorem updateEmpty_application_amended_witness :
    ((extC9b.evaluateForEffects astW.consequent s0.world
          ((Value.abs 0, true) :: s0.path)).1 = .error .infeasible ∧
        (evaluateWithAbstractConditional extC9b (.abs 0) astW.consequent
            astW.alternate s0).1 = .ok .undef) ∧
      ((joinEffects extC9 () (.abs 0)
            { completion := .abrupt .thr (.num 3) none
              generator := .empty
              bindings := []
              properties := []
              createdObjects := [] }
            construct_empty_effects).completion.isPossiblyNormal = true ∧
        (evaluateWithAbstractConditional extC9 (.abs 0) astW.consequent
            astW.alternate s0).1 = .ok .empty) :=
  ⟨⟨rfl,
      (updateEmpty_application_amended extC9b (.abs 0) astW.consequent astW.alternate s0).1
        rfl ⟨2⟩ () rfl rfl⟩,
    ⟨rfl,
      (updateEmpty_application_amended extC9 (.abs 0) astW.consequent astW.alternate s0).2
        { completion := .abrupt .thr (.num 3) none
          generator := .empty
          bindings := []
          properties := []
          createdObjects := [] }
        construct_empty_effects () () rfl rfl rfl rfl⟩⟩

/-! ## C10: the Reference invariants are unreachable -/

/-- A branch-evaluation result that is not a `Reference` and does not
fabricate this file's reference-invariant failure (site 0). -/
def resRefFree : Except Err EvalRes → Bool
  | .ok (.ref _) => false
  | .error (.invariantViolation 0) => false
  | _ => true

/-- A collaborator outcome that does not fabricate this file's
reference-invariant failure (site 0). -/
def errRefFree {α : Type} : Except Err α → Bool
  | .error (.invariantViolation 0) => false
  | _ => true

theorem errRefFree_error {α : Type} (e : Err)
    (h : errRefFree (.error e : Except Err α) = true) : e ≠ .invariantViolation 0 := by
  intro hcontra
  subst hcontra
  simp [errRefFree] at h

theorem resRefFree_error (e : Err) (h : resRefFree (.error e) = true) :
    e ≠ .invariantViolation 0 := by
  intro hcontra
  subst hcontra
  simp [resRefFree] at h

theorem finishDirect_compl_ne_refInv (c0 : Completion) :
    finishDirect (.compl c0) ≠ .error (.invariantViolation 0) := by
  unfold finishDirect
  rcases hu : UpdateEmpty c0 .undef with v | ⟨k, v, t⟩ | ⟨c2, x, y⟩ | ⟨c2, x, y⟩ <;>
    simp [hu, Completion.isAbrupt]

theorem runDirect_fst_ne_refInv {σ : Type} (r : Except Err EvalRes × σ)
    (p : List (Value × Bool)) (t : List Event) (h : resRefFree r.1 = true) :
    (runDirect r p t).1 ≠ .error (.invariantViolation 0) := by
  rcases r with ⟨r1, w⟩
  cases r1 with
  | error e =>
    have hne := resRefFree_error e h
    intro hcontra
    simp only [runDirect] at hcontra
    exact hne (by simpa using hcontra)
  | ok res =>
    cases res with
    | ref i => simp [resRefFree] at h
    | compl c0 =>
      simp only [runDirect]
      exact finishDirect_compl_ne_refInv c0

theorem finishJoin_fst_ne_refInv {σ : Type} (comp : Completion) (w : σ)
    (p : List (Value × Bool)) (t : List Event) :
    (finishJoin comp w p t).1 ≠ .error (.invariantViolation 0) := by
  cases comp <;> simp [finishJoin, Completion.isAbrupt]

/-- Helper for C10: the fork procedure never fails its reference
invariants when the collaborators never produce a `Reference`. -/
theorem ewac_ref_invariant_unreachable {σ : Type} (ext : Ext σ) (c : Value) (cons : Node)
    (alt : Option Node) (s : St σ)
    (hC : ∀ n w p, resRefFree (ext.evaluateCompletion n w p).1 = true)
    (hD : ∀ n w p, resRefFree (ext.evaluateDirect n w p).1 = true)
    (hF : ∀ n w p, errRefFree (ext.evaluateForEffects n w p).1 = true) :
    (evaluateWithAbstractConditional ext c cons alt s).1 ≠
      .error (.invariantViolation 0) := by
  unfold evaluateWithAbstractConditional
  rcases h1p : ext.evaluateForEffects cons s.world ((c, true) :: s.path) with ⟨r1, w1⟩
  cases r1 with
  | error e =>
    by_cases he : e = Err.infeasible
    · subst he
      cases alt with
      | some a =>
        simpa using runDirect_fst_ne_refInv (ext.evaluateCompletion a w1 s.path) s.path
          (.sandbox cons :: .push c true :: s.trace) (hC a w1 s.path)
      | none =>
        simpa using finishDirect_compl_ne_refInv (.val .undef)
    · have hf := hF cons s.world ((c, true) :: s.path)
      rw [h1p] at hf
      have hne := errRefFree_error e hf
      simp [he, Ne, Except.error.injEq]
      intro hcontra
      exact hne hcontra
  | ok eff1 =>
    cases alt with
    | some a =>
      rcases h2p : ext.evaluateForEffects a w1 ((c, false) :: s.path) with ⟨r2, w2⟩
      cases r2 with
      | error e =>
        by_cases he : e = Err.infeasible
        · subst he
          simpa [h2p] using runDirect_fst_ne_refInv (ext.evaluateDirect cons w2 s.path)
            s.path (.sandbox a :: .push c false :: .sandbox cons :: .push c true :: s.trace)
            (hD cons w2 s.path)
        · have hf := hF a w1 ((c, false) :: s.path)
          rw [h2p] at hf
          have hne := errRefFree_error e hf
          simp [h2p, he, Ne, Except.error.injEq]
          intro hcontra
          exact hne hcontra
      | ok eff2 =>
        simpa [h2p] using finishJoin_fst_ne_refInv
          (if (joinEffects ext w2 c eff1 eff2).completion.isPossiblyNormal
            then (ext.composeWithSaved (joinEffects ext w2 c eff1 eff2).completion w2)
            else ((joinEffects ext w2 c eff1 eff2).completion, w2)).1
          (ext.applyEffects (joinEffects ext w2 c eff1 eff2)
            (if (joinEffects ext w2 c eff1 eff2).completion.isPossiblyNormal
              then (ext.composeWithSaved (joinEffects ext w2 c eff1 eff2).completion w2)
              else ((joinEffects ext w2 c eff1 eff2).completion, w2)).2)
          s.path
          (.applyCall (joinEffects ext w2 c eff1 eff2) ::
            (if (joinEffects ext w2 c eff1 eff2).completion.isPossiblyNormal
              then Event.compose ::
                .joinCall (joinEffects ext w2 c eff1 eff2) ::
                .sandbox a :: .push c false :: .sandbox cons :: .push c true :: s.trace
              else .joinCall (joinEffects ext w2 c eff1 eff2) ::
                .sandbox a :: .push c false :: .sandbox cons :: .push c true :: s.trace))
    | none =>
      simpa using finishJoin_fst_ne_refInv
        (if (joinEffects ext w1 c eff1 construct_empty_effects).completion.isPossiblyNormal
          then (ext.composeWithSaved
            (joinEffects ext w1 c eff1 construct_empty_effects).completion w1)
          else ((joinEffects ext w1 c eff1 construct_empty_effects).completion, w1)).1
        (ext.applyEffects (joinEffects ext w1 c eff1 construct_empty_effects)
          (if (joinEffects ext w1 c eff1 construct_empty_effects).completion.isPossiblyNormal
            then (ext.composeWithSaved
              (joinEffects ext w1 c eff1 construct_empty_effects).completion w1)
            else ((joinEffects ext w1 c eff1 construct_empty_effects).completion, w1)).2)
        s.path
        (.applyCall (joinEffects ext w1 c eff1 construct_empty_effects) ::
          (if (joinEffects ext w1 c eff1
              construct_empty_effects).completion.isPossiblyNormal
            then Event.compose ::
              .joinCall (joinEffects ext w1 c eff1 construct_empty_effects) ::
              .push c false :: .sandbox cons :: .push c true :: s.trace
            else .joinCall (joinEffects ext w1 c eff1 construct_empty_effects) ::
              .push c false :: .sandbox cons :: .push c true :: s.trace))

/-- C10: on every direct-evaluation path the evaluator asserts that
the branch result is not a `Reference` before normalizing it; under the
precondition that the collaborators' evaluate and evaluateCompletion
never return a `Reference` (and no collaborator fabricates this file's
reference-invariant fault), those assertion-failure branches are
unreachable: the evaluator never produces the site-0 invariant
violation. -/
theorem evaluate_ref_invariant_unreachable {σ : Type} (ext : Ext σ) (ast : AstIf)
    (s : St σ)
    (hC : ∀ n w p, resRefFree (ext.evaluateCompletion n w p).1 = true)
    (hD : ∀ n w p, resRefFree (ext.evaluateDirect n w p).1 = true)
    (h0 : ∀ n w p, errRefFree (ext.evalCondition n w p).1 = true)
    (hF : ∀ n w p, errRefFree (ext.evaluateForEffects n w p).1 = true)
    (hT : ∀ v p, errRefFree (ext.mightNotBeTrue v p) = true)
    (hFq : ∀ v p, errRefFree (ext.mightNotBeFalse v p) = true) :
    (evaluate ext ast s).1 ≠ .error (.invariantViolation 0) := by
  unfold evaluate
  rcases h0p : ext.evalCondition ast.test s.world s.path with ⟨r0, w0⟩
  cases r0 with
  | error e =>
    have h := h0 ast.test s.world s.path
    rw [h0p] at h
    have hne := errRefFree_error e h
    simp [Ne, Except.error.injEq]
    intro hcontra
    exact hne hcontra
  | ok v =>
    by_cases hc : v.isConcrete
    · by_cases hb : ext.toBoolean v
      · simpa [hc, hb] using runDirect_fst_ne_refInv
          (ext.evaluateCompletion ast.consequent w0 s.path) s.path s.trace
          (hC ast.consequent w0 s.path)
      · cases hA : ast.alternate with
        | some a =>
          simpa [hc, hb, hA] using runDirect_fst_ne_refInv
            (ext.evaluateCompletion a w0 s.path) s.path s.trace (hC a w0 s.path)
        | none => simpa [hc, hb, hA] using finishDirect_compl_ne_refInv (.val .undef)
    · rcases hq1 : ext.mightNotBeTrue v s.path with e | b1
      · have h := hT v s.path
        rw [hq1] at h
        have hne := errRefFree_error e h
        simp [hc, Value.isAbstract, hq1, Ne, Except.error.injEq]
        intro hcontra
        exact hne hcontra
      · cases b1 with
        | false =>
          simpa [hc, Value.isAbstract, hq1] using runDirect_fst_ne_refInv
            (ext.evaluateDirect ast.consequent w0 s.path) s.path s.trace
            (hD ast.consequent w0 s.path)
        | true =>
          rcases hq2 : ext.mightNotBeFalse v s.path with e | b2
          · have h := hFq v s.path
            rw [hq2] at h
            have hne := errRefFree_error e h
            simp [hc, Value.isAbstract, hq1, hq2, Ne, Except.error.injEq]
            intro hcontra
            exact hne hcontra
          · cases b2 with
            | false =>
              cases hA : ast.alternate with
              | some a =>
                simpa [hc, Value.isAbstract, hq1, hq2, hA] using runDirect_fst_ne_refInv
                  (ext.evaluateDirect a w0 s.path) s.path s.trace (hD a w0 s.path)
              | none =>
                simpa [hc, Value.isAbstract, hq1, hq2, hA] using
                  finishDirect_compl_ne_refInv (.val .undef)
            | true =>
              have h := ewac_ref_invariant_unreachable ext v ast.consequent ast.alternate
                ⟨w0, s.path, s.trace⟩ hC hD hF
              simpa [hc, Value.isAbstract, hq1, hq2] using h

/-- Witness for C10: with collaborators that never produce a reference,
the evaluator's result is not the reference-invariant fault. -/
theorem evaluate_ref_invariant_unreachable_witness :
    (∀ n w p, resRefFree (extBase.evaluateCompletion n w p).1 = true) ∧
      (∀ n w p, resRefFree (extBase.evaluateDirect n w p).1 = true) ∧
      (evaluate extBase astW s0).1 ≠ .error (.invariantViolation 0) :=
  ⟨fun _ _ _ => rfl, fun _ _ _ => rfl,
    evaluate_ref_invariant_unreachable extBase astW s0 (fun _ _ _ => rfl)
      (fun _ _ _ => rfl) (fun _ _ _ => rfl) (fun _ _ _ => rfl) (fun _ _ => rfl)
      (fun _ _ => rfl)⟩

end Prepack
